import Mathlib

/-!
Verification of the `cache` package (robotsrulz/go-cache).

The Go program keeps two maps, each owned by a dedicated goroutine that
executes submitted closures strictly one at a time, in submission order
(`loopItemOps` over `map[string]T`, `loopExpiryOps` over
`map[string]*time.Timer`).  We embed the program shallowly: each channel
submission is modelled as a function on an explicit state, applied in the
order the public operations submit them (the canonical linearization of the
two lanes).  Timers are ghost records carrying their key, their status
(active / stopped / fired) and, for `AfterFunc`, the callback identifier and
the captured value; firing a timer is an explicit `fireTimer` event that
replays the body of the closure the Go code hands to `time.AfterFunc`.
Values of type `T` (Go `interface{}`) are an arbitrary type `α`; Go's `nil`
zero value is `default` of an `Inhabited` instance.
-/

set_option autoImplicit false

namespace GoCache

universe u

variable {α : Type u}

/-- Go maps `map[string]V` are embedded as association lists with
string keys; all operations below mirror the corresponding Go map
primitives (`m[k]`, `m[k] = v`, `delete(m, k)`). -/
abbrev AList (α : Type u) : Type u := List (String × α)

/-- `m[k]` with presence: the value stored at `k`, if any. -/
def alGet (k : String) : AList α → Option α
  | [] => none
  | (k', v) :: t => if k' = k then some v else alGet k t

/-- `delete(m, k)`: remove the binding of `k` (no-op when absent). -/
def alErase (k : String) : AList α → AList α
  | [] => []
  | (k', v) :: t => if k' = k then alErase k t else (k', v) :: alErase k t

/-- `m[k] = v`: overwrite (or create) the binding of `k`. -/
def alSet (k : String) (v : α) (l : AList α) : AList α :=
  (k, v) :: alErase k l

/-- The keys of the map. -/
def alKeys (l : AList α) : List String :=
  l.map (fun p => p.1)

@[simp] theorem alGet_nil (k : String) : alGet k ([] : AList α) = none := rfl

@[simp] theorem alGet_cons (k k' : String) (v : α) (t : AList α) :
    alGet k ((k', v) :: t) = if k' = k then some v else alGet k t := rfl

@[simp] theorem alErase_nil (k : String) : alErase k ([] : AList α) = [] := rfl

theorem alGet_alErase (k k' : String) (l : AList α) :
    alGet k' (alErase k l) = if k = k' then none else alGet k' l := by
  induction l with
  | nil => simp
  | cons p t ih =>
    obtain ⟨k₀, v₀⟩ := p
    by_cases h₀ : k₀ = k
    · subst h₀
      by_cases h₁ : k₀ = k'
      · subst h₁; simpa [alErase] using ih
      · simpa [alErase, h₁] using ih
    · by_cases h₁ : k₀ = k'
      · subst h₁
        have hne : ¬ k = k₀ := fun h => h₀ h.symm
        simp [alErase, h₀, hne]
      · simpa [alErase, h₀, h₁] using ih

@[simp] theorem alGet_alErase_self (k : String) (l : AList α) :
    alGet k (alErase k l) = none := by
  simp [alGet_alErase]

theorem alGet_alErase_ne (k k' : String) (h : k ≠ k') (l : AList α) :
    alGet k' (alErase k l) = alGet k' l := by
  simp [alGet_alErase, h]

@[simp] theorem alGet_alSet_self (k : String) (v : α) (l : AList α) :
    alGet k (alSet k v l) = some v := by
  simp [alSet]

theorem alGet_alSet_ne (k k' : String) (v : α) (h : k ≠ k') (l : AList α) :
    alGet k' (alSet k v l) = alGet k' l := by
  simp [alSet, h, alGet_alErase_ne k k' h]

theorem alGet_alSet (k k' : String) (v : α) (l : AList α) :
    alGet k' (alSet k v l) = if k = k' then some v else alGet k' l := by
  by_cases h : k = k'
  · subst h; simp
  · simp [h, alGet_alSet_ne k k' v h]

/-- Lexicographic strict comparison of char lists, the order `sort.Strings`
sorts by (Go compares strings byte-wise in UTF-8, which coincides with
code-point order).  Structural recursion keeps it kernel-computable. -/
def charsLtb : List Char → List Char → Bool
  | [], [] => false
  | [], _ :: _ => true
  | _ :: _, [] => false
  | a :: as, b :: bs => if a < b then true else if b < a then false else charsLtb as bs

/-- `a <= b` on Go strings. -/
def strLeb (a b : String) : Bool :=
  ! charsLtb b.data a.data

theorem charsLtb_iff_lex (as bs : List Char) :
    charsLtb as bs = true ↔ List.Lex (· < ·) as bs := by
  induction as generalizing bs with
  | nil =>
    cases bs with
    | nil =>
      simp only [charsLtb, Bool.false_eq_true, false_iff]
      intro h; cases h
    | cons b t =>
      simp only [charsLtb, true_iff]
      exact List.Lex.nil
  | cons a as ih =>
    cases bs with
    | nil =>
      simp only [charsLtb, Bool.false_eq_true, false_iff]
      intro h; cases h
    | cons b t =>
      by_cases hab : a < b
      · simp only [charsLtb, hab, if_true, true_iff]
        exact List.Lex.rel hab
      · by_cases hba : b < a
        · simp only [charsLtb, hab, hba, if_false, if_true, Bool.false_eq_true, false_iff]
          intro h
          cases h with
          | cons h => exact lt_irrefl a hba
          | rel h => exact hab h
        · have hk : a = b := le_antisymm (le_of_not_lt hba) (le_of_not_lt hab)
          subst hk
          simp only [charsLtb, hab, if_false, ih]
          constructor
          · exact fun h => List.Lex.cons h
          · intro h
            cases h with
            | cons h => exact h
            | rel h => exact absurd h hab

/-- `strLeb` decides the lexicographic order on `String`. -/
theorem strLeb_iff_le (a b : String) : strLeb a b = true ↔ a ≤ b := by
  have hlt : charsLtb b.data a.data = true ↔ b < a := by
    rw [charsLtb_iff_lex]
    rw [String.lt_iff_toList_lt]
    rfl
  rw [strLeb, Bool.not_eq_true', ← Bool.not_eq_true, hlt, not_lt]

/-- The order used by the embedded `sort.Strings`, as a relation. -/
def goLe (a b : String) : Prop :=
  strLeb a b = true

instance goLe.decidableRel : DecidableRel goLe :=
  fun a b => inferInstanceAs (Decidable (strLeb a b = true))

instance goLe.isTotal : IsTotal String goLe where
  total a b := by
    rcases le_total a b with h | h
    · exact Or.inl ((strLeb_iff_le a b).mpr h)
    · exact Or.inr ((strLeb_iff_le b a).mpr h)

instance goLe.isTrans : IsTrans String goLe where
  trans a b c hab hbc := by
    have h₁ := (strLeb_iff_le a b).mp hab
    have h₂ := (strLeb_iff_le b c).mp hbc
    exact (strLeb_iff_le a c).mpr (le_trans h₁ h₂)

/-- Status of a `*time.Timer` created by `time.AfterFunc`: still pending,
stopped by `timer.Stop()`, or already fired.  Ghost state: the Go runtime
tracks this inside the timer. -/
inductive TStatus : Type where
  | active : TStatus
  | stopped : TStatus
  | fired : TStatus
deriving DecidableEq, Repr

/-- A timer installed in the expiry map.  `key` is the key captured by the
closure handed to `time.AfterFunc`; `onFire` is `none` for a timer created
by the `Expire` option (its closure is `func() { c.Delete(key) }`) and
`some (cbId, v)` for one created by `AfterFunc(expiry, afterFunc)` (closure
`func() { c.Delete(key); afterFunc(val) }`), where `cbId` identifies the
caller-supplied function and `v` is the value the closure captured at the
moment the option ran. -/
structure Timer (α : Type u) : Type u where
  key : String
  status : TStatus
  onFire : Option (Nat × α)
deriving Repr

/-- The two maps of the `Cache` struct plus the ghost list of every timer
created so far (a timer's id is its index in `timers`; `expiries` maps a key
to a timer id, embedding Go's `map[string]*time.Timer`). -/
structure CacheState (α : Type u) : Type u where
  items : AList α
  expiries : AList Nat
  timers : List (Timer α)
deriving Repr

/-- The state right after `New()`: both maps empty, no timer created yet. -/
def initState : CacheState α := ⟨[], [], []⟩

/-- `timer.Stop()` on the timer with id `tid`: a pending timer becomes
stopped; stopping an already stopped or fired timer has no effect (Go's
`Stop` merely returns `false` then). -/
def stopTimer (tid : Nat) (ts : List (Timer α)) : List (Timer α) :=
  match ts[tid]? with
  | some t => if t.status = .active then ts.set tid { t with status := .stopped } else ts
  | none => ts

/-- The closure `Set` and `Delete` submit to the expiry lane:
`if timer, ok := expiries[key]; ok { timer.Stop(); delete(expiries, key) }`. -/
def cancelExpiryOp (k : String) (s : CacheState α) : CacheState α :=
  match alGet k s.expiries with
  | some tid =>
      { s with timers := stopTimer tid s.timers, expiries := alErase k s.expiries }
  | none => s

/-- The closure `Set` submits to the item lane: `items[key] = val`. -/
def itemSetOp (k : String) (v : α) (s : CacheState α) : CacheState α :=
  { s with items := alSet k v s.items }

/-- The closure `Delete` submits to the item lane:
`if _, ok := items[key]; ok { delete(items, key) }`. -/
def itemDeleteOp (k : String) (s : CacheState α) : CacheState α :=
  { s with items := alErase k s.items }

/-- The closure `Clear` submits to the item lane: delete every key. -/
def clearOp (s : CacheState α) : CacheState α :=
  { s with items := [] }

/-- The closure `Expire` and `AfterFunc` submit to the expiry lane:
`if timer, ok := expiries[key]; ok { timer.Stop() }` (note: no map delete),
then `expiries[key] = time.AfterFunc(expiry, ...)` — a fresh active timer. -/
def scheduleExpiryOp (k : String) (onFire : Option (Nat × α)) (s : CacheState α) :
    CacheState α :=
  let ts :=
    match alGet k s.expiries with
    | some tid => stopTimer tid s.timers
    | none => s.timers
  { s with
    timers := ts ++ [⟨k, .active, onFire⟩],
    expiries := alSet k ts.length s.expiries }

/-- A `SetOption` value: `Expire(d)` or `AfterFunc(d, f)`, with the
caller-supplied function represented by an identifier. -/
inductive SetOption (α : Type u) : Type u where
  | expire (d : Nat) : SetOption α
  | afterFunc (d : Nat) (cbId : Nat) : SetOption α

/-- Running `option(c, key, val)`: both options submit a schedule command to
the expiry lane; `AfterFunc`'s closure captures `val` at this moment. -/
def applyOption (k : String) (v : α) (s : CacheState α) : SetOption α → CacheState α
  | .expire _ => scheduleExpiryOp k none s
  | .afterFunc _ cbId => scheduleExpiryOp k (some (cbId, v)) s

/-- `Set(key, val, options...)`: submit the cancel command to the expiry
lane, then the write to the item lane, then run the options in order. -/
def cacheSet (k : String) (v : α) (opts : List (SetOption α)) (s : CacheState α) :
    CacheState α :=
  opts.foldl (applyOption k v) (itemSetOp k v (cancelExpiryOp k s))

/-- `Delete(key)`: submit the cancel command to the expiry lane, then the
conditional delete to the item lane. -/
def cacheDelete (k : String) (s : CacheState α) : CacheState α :=
  itemDeleteOp k (cancelExpiryOp k s)

/-- `Clear()`: one command on the item lane; the expiry lane is untouched. -/
def cacheClear (s : CacheState α) : CacheState α :=
  clearOp s

/-- `Get(key)`: `result <- items[key]`; a missing key yields Go's zero
value of `T` (`nil`), embedded as `default`. -/
def cacheGet [Inhabited α] (k : String) (s : CacheState α) : α :=
  (alGet k s.items).getD default

/-- `GetOK(key)`: `v, ok := items[key]; result <- v; exists <- ok`. -/
def cacheGetOK [Inhabited α] (k : String) (s : CacheState α) : α × Bool :=
  match alGet k s.items with
  | some v => (v, true)
  | none => (default, false)

/-- `Items()`: `cp := map[string]T{}; for key, val := range items
{ cp[key] = val }; result <- cp` — an entry-by-entry copy into a fresh map. -/
def cacheItems (s : CacheState α) : AList α :=
  s.items.foldl (fun cp p => alSet p.1 p.2 cp) []

/-- `IsEmpty()`: `len(items) == 0`. -/
def cacheIsEmpty (s : CacheState α) : Bool :=
  s.items.length == 0

/-- `Size()`: `len(items)`. -/
def cacheSize (s : CacheState α) : Nat :=
  s.items.length

/-- `Keys()`: collect all keys, `sort.Strings(keys)` (ascending
lexicographic order; Go's byte-wise UTF-8 order coincides with Lean's
code-point order on `String`), return the sorted slice. -/
def cacheKeys (s : CacheState α) : List String :=
  List.insertionSort goLe (alKeys s.items)

/-- The timer with id `tid` fires.  The Go runtime delivers this only for a
timer that is still pending (`Stop` prevents delivery, and a one-shot timer
fires at most once); a fire of a non-active timer is a no-op here.  The
timer's goroutine then runs the closure installed by `Expire` or
`AfterFunc`: `c.Delete(key)` first, then — for `AfterFunc` — the
caller's function applied to the captured value.  The returned list records
the callback invocations the event produced (callback id, argument). -/
def fireTimer (tid : Nat) (s : CacheState α) : CacheState α × List (Nat × α) :=
  match s.timers[tid]? with
  | some t =>
      if t.status = .active then
        let s₁ : CacheState α := { s with timers := s.timers.set tid { t with status := .fired } }
        let s₂ := cacheDelete t.key s₁
        match t.onFire with
        | some cv => (s₂, [cv])
        | none => (s₂, [])
      else (s, [])
  | none => (s, [])

/-- Outcome of running code that may panic: Go has no recover anywhere in
this package, so a panic in a callback propagates out of the function that
invoked it. -/
inductive PanicOr (β : Type u) : Type u where
  | ok (b : β) : PanicOr β
  | panicked : PanicOr β
deriving Repr

/-- The body of the goroutine `time.AfterFunc` starts when an `AfterFunc`
timer fires, with the caller-supplied function modelled by its behaviour
`cb` (which may panic): `func() { c.Delete(key); afterFunc(val) }`.  There
is no `recover` in the source, so a panic in `afterFunc` escapes the
goroutine — which in Go terminates the whole process. -/
def runAfterFuncGoroutine (cb : α → PanicOr Unit) (k : String) (v : α)
    (s : CacheState α) : PanicOr (CacheState α) :=
  let s₁ := cacheDelete k s
  match cb v with
  | .ok _ => .ok s₁
  | .panicked => .panicked

/-! ### Supporting lemmas about the lane commands -/

@[simp] theorem items_cancelExpiryOp (k : String) (s : CacheState α) :
    (cancelExpiryOp k s).items = s.items := by
  unfold cancelExpiryOp
  cases alGet k s.expiries <;> rfl

@[simp] theorem items_scheduleExpiryOp (k : String) (o : Option (Nat × α))
    (s : CacheState α) : (scheduleExpiryOp k o s).items = s.items := rfl

@[simp] theorem items_applyOption (k : String) (v : α) (s : CacheState α)
    (o : SetOption α) : (applyOption k v s o).items = s.items := by
  cases o <;> rfl

theorem items_foldl_applyOption (k : String) (v : α) (opts : List (SetOption α))
    (s : CacheState α) : (opts.foldl (applyOption k v) s).items = s.items := by
  induction opts generalizing s with
  | nil => rfl
  | cons o t ih => rw [List.foldl_cons, ih, items_applyOption]

/-- No matter the options, `Set(k, v, ...)` leaves `items[k] = v` and every
other key's binding unchanged. -/
theorem items_cacheSet (k : String) (v : α) (opts : List (SetOption α))
    (s : CacheState α) : (cacheSet k v opts s).items = alSet k v s.items := by
  unfold cacheSet
  rw [items_foldl_applyOption]
  simp [itemSetOp]

@[simp] theorem alGet_cancelExpiryOp_self (k : String) (s : CacheState α) :
    alGet k (cancelExpiryOp k s).expiries = none := by
  unfold cancelExpiryOp
  cases h : alGet k s.expiries with
  | none => exact h
  | some tid => simp

theorem timers_length_cancelExpiryOp (k : String) (s : CacheState α) :
    (cancelExpiryOp k s).timers.length = s.timers.length := by
  unfold cancelExpiryOp
  cases alGet k s.expiries with
  | none => rfl
  | some tid =>
    show (stopTimer tid s.timers).length = _
    unfold stopTimer
    cases s.timers[tid]? with
    | none => rfl
    | some t =>
      dsimp only
      split
      · exact List.length_set s.timers tid _
      · rfl

theorem stopTimer_not_active (tid : Nat) (ts : List (Timer α)) :
    ∀ t, (stopTimer tid ts)[tid]? = some t → t.status ≠ .active := by
  intro t ht
  unfold stopTimer at ht
  cases h : ts[tid]? with
  | none => rw [h] at ht; rw [h] at ht; exact absurd ht (by simp [h])
  | some t₀ =>
    rw [h] at ht
    dsimp only at ht
    by_cases ha : t₀.status = .active
    · rw [if_pos ha] at ht
      have hlt : tid < ts.length := (List.getElem?_eq_some.mp h).1
      rw [List.getElem?_set_self (by simpa using hlt)] at ht
      cases ht
      simp
    · rw [if_neg ha] at ht
      rw [h] at ht
      cases ht
      exact ha

@[simp] theorem expiries_itemSetOp (k : String) (v : α) (s : CacheState α) :
    (itemSetOp k v s).expiries = s.expiries := rfl

@[simp] theorem timers_itemSetOp (k : String) (v : α) (s : CacheState α) :
    (itemSetOp k v s).timers = s.timers := rfl

theorem cacheSet_no_options (k : String) (v : α) (s : CacheState α) :
    cacheSet k v [] s = itemSetOp k v (cancelExpiryOp k s) := rfl

theorem timers_cancelExpiryOp_of_get (k : String) (tid : Nat) (s : CacheState α)
    (h : alGet k s.expiries = some tid) :
    (cancelExpiryOp k s).timers = stopTimer tid s.timers := by
  unfold cancelExpiryOp
  rw [h]

/-- A timer that is not active never fires: the event is a no-op. -/
theorem fireTimer_of_not_active (tid : Nat) (s : CacheState α)
    (h : ∀ t, s.timers[tid]? = some t → t.status ≠ .active) :
    fireTimer tid s = (s, []) := by
  unfold fireTimer
  cases ht : s.timers[tid]? with
  | none => rfl
  | some t =>
    dsimp only
    rw [if_neg (h t ht)]

theorem alErase_of_get_none (k : String) (l : AList α) (h : alGet k l = none) :
    alErase k l = l := by
  induction l with
  | nil => rfl
  | cons p t ih =>
    obtain ⟨k₀, v₀⟩ := p
    by_cases h₀ : k₀ = k
    · subst h₀
      simp at h
    · simp only [alGet_cons, h₀, if_false] at h
      simp [alErase, h₀, ih h]

theorem stopTimer_eq_of_not_active (tid : Nat) (ts : List (Timer α)) :
    (∀ t, ts[tid]? = some t → t.status ≠ .active) → stopTimer tid ts = ts := by
  intro h
  unfold stopTimer
  cases ht : ts[tid]? with
  | none => rfl
  | some t =>
    dsimp only
    rw [if_neg (h t ht)]

@[simp] theorem items_cacheDelete (k : String) (s : CacheState α) :
    (cacheDelete k s).items = alErase k s.items := by
  simp [cacheDelete, itemDeleteOp]

theorem expiries_cacheDelete (k : String) (s : CacheState α) :
    (cacheDelete k s).expiries = alErase k s.expiries := by
  unfold cacheDelete itemDeleteOp cancelExpiryOp
  cases h : alGet k s.expiries with
  | none => simp [alErase_of_get_none k s.expiries h]
  | some tid => rfl

theorem timers_cacheDelete_of_get (k : String) (tid : Nat) (s : CacheState α)
    (h : alGet k s.expiries = some tid) :
    (cacheDelete k s).timers = stopTimer tid s.timers := by
  unfold cacheDelete itemDeleteOp cancelExpiryOp
  rw [h]

theorem timers_cacheDelete_of_none (k : String) (s : CacheState α)
    (h : alGet k s.expiries = none) :
    (cacheDelete k s).timers = s.timers := by
  unfold cacheDelete itemDeleteOp cancelExpiryOp
  rw [h]

/-- Firing an active timer marks it fired and runs its closure: `Delete` of
the captured key first, then the recorded callback invocation, if any. -/
theorem fireTimer_eq_of_active (tid : Nat) (s : CacheState α) (t : Timer α)
    (h : s.timers[tid]? = some t) (ha : t.status = .active) :
    fireTimer tid s =
      (cacheDelete t.key { s with timers := s.timers.set tid { t with status := .fired } },
        t.onFire.toList) := by
  unfold fireTimer
  rw [h]
  dsimp only
  rw [if_pos ha]
  cases t.onFire <;> rfl

theorem scheduleExpiryOp_of_none (k : String) (o : Option (Nat × α)) (s : CacheState α)
    (h : alGet k s.expiries = none) :
    scheduleExpiryOp k o s =
      { s with timers := s.timers ++ [⟨k, .active, o⟩],
               expiries := alSet k s.timers.length s.expiries } := by
  unfold scheduleExpiryOp
  rw [h]

/-! ### The claims -/

/-- **C1.** For every key `k` and value `v`, and any prior cache state:
after `Set(k, v)` is called with no options, `GetOK(k)` returns `(v, true)`,
and `Get(k)` returns `v`. -/
theorem getOK_after_set [Inhabited α] (s : CacheState α) (k : String) (v : α) :
    cacheGetOK k (cacheSet k v [] s) = (v, true) ∧
    cacheGet k (cacheSet k v [] s) = v := by
  have h : alGet k (cacheSet k v [] s).items = some v := by
    rw [items_cacheSet]
    exact alGet_alSet_self k v s.items
  constructor
  · unfold cacheGetOK
    rw [h]
  · unfold cacheGet
    rw [h]
    rfl

/-- **C2.** Every `Set(k, v)` — even with no options — first submits the
stop-and-remove of any previously installed expiry handle for `k` (the first
command `Set` issues, before the item write), so after an un-optioned
`Set(k, v)` no expiry handle for `k` remains and the old timer cannot later
delete the new entry: firing it is a no-op. -/
theorem set_cancels_prior_expiry (s : CacheState α) (k : String) (v : α) (tid : Nat)
    (h : alGet k s.expiries = some tid) :
    cacheSet k v [] s = itemSetOp k v (cancelExpiryOp k s) ∧
    alGet k (cacheSet k v [] s).expiries = none ∧
    fireTimer tid (cacheSet k v [] s) = (cacheSet k v [] s, []) := by
  refine ⟨cacheSet_no_options k v s, ?_, ?_⟩
  · rw [cacheSet_no_options, expiries_itemSetOp]
    exact alGet_cancelExpiryOp_self k s
  · apply fireTimer_of_not_active
    intro t ht
    rw [cacheSet_no_options, timers_itemSetOp,
      timers_cancelExpiryOp_of_get k tid s h] at ht
    exact stopTimer_not_active tid s.timers t ht

/-- Witness for C2: a cache holding an `Expire` handle for `"a"` (timer 0);
overwriting with a plain `Set` clears the handle and timer 0 can no longer
fire. -/
theorem set_cancels_prior_expiry_witness :
    alGet "a" (cacheSet "a" (1 : Nat) [.expire 5] initState).expiries = some 0 ∧
    (cacheSet "a" 2 [] (cacheSet "a" (1 : Nat) [.expire 5] initState) =
        itemSetOp "a" 2 (cancelExpiryOp "a" (cacheSet "a" (1 : Nat) [.expire 5] initState)) ∧
      alGet "a" (cacheSet "a" 2 [] (cacheSet "a" (1 : Nat) [.expire 5] initState)).expiries = none ∧
      fireTimer 0 (cacheSet "a" 2 [] (cacheSet "a" (1 : Nat) [.expire 5] initState)) =
        (cacheSet "a" 2 [] (cacheSet "a" (1 : Nat) [.expire 5] initState), [])) :=
  ⟨by decide, set_cancels_prior_expiry (cacheSet "a" (1 : Nat) [.expire 5] initState) "a" 2 0 (by decide)⟩

theorem cacheSet_single_afterFunc (k : String) (v : α) (d cbId : Nat) (s : CacheState α) :
    cacheSet k v [.afterFunc d cbId] s =
      scheduleExpiryOp k (some (cbId, v)) (itemSetOp k v (cancelExpiryOp k s)) := rfl

/-- Anatomy of `Set(k, v, AfterFunc(d, cb))`: the state it produces, with
the fresh active timer appended at index `s.timers.length` and registered in
the expiry map. -/
theorem cacheSet_afterFunc_eq (k : String) (v : α) (d cbId : Nat) (s : CacheState α) :
    cacheSet k v [.afterFunc d cbId] s =
      { items := alSet k v s.items,
        expiries := alSet k (cancelExpiryOp k s).timers.length
          (cancelExpiryOp k s).expiries,
        timers := (cancelExpiryOp k s).timers ++ [⟨k, .active, some (cbId, v)⟩] } := by
  have hnone : alGet k (itemSetOp k v (cancelExpiryOp k s)).expiries = none := by
    rw [expiries_itemSetOp]
    exact alGet_cancelExpiryOp_self k s
  rw [cacheSet_single_afterFunc, scheduleExpiryOp_of_none k _ _ hnone]
  simp [itemSetOp]

/-- **C5.** For every key `k`, value `v`, duration `d` and callback `cb`:
after `Set(k, v, AfterFunc(d, cb))`, firing the installed timer invokes `cb`
exactly once — the fire event emits the single invocation `(cb, v)`, in the
state where `k` has already been deleted from the item store (the closure
runs `c.Delete(key)` before `afterFunc(val)`), and a second fire of the same
timer is impossible: it is a no-op producing no invocation. -/
theorem afterFunc_deletes_then_calls_once (s : CacheState α) (k : String) (v : α)
    (d cbId : Nat) :
    alGet k (cacheSet k v [.afterFunc d cbId] s).expiries = some s.timers.length ∧
    (fireTimer s.timers.length (cacheSet k v [.afterFunc d cbId] s)).2 = [(cbId, v)] ∧
    alGet k ((fireTimer s.timers.length (cacheSet k v [.afterFunc d cbId] s)).1).items
      = none ∧
    fireTimer s.timers.length
        ((fireTimer s.timers.length (cacheSet k v [.afterFunc d cbId] s)).1) =
      ((fireTimer s.timers.length (cacheSet k v [.afterFunc d cbId] s)).1, []) := by
  have hlen : (cancelExpiryOp k s).timers.length = s.timers.length :=
    timers_length_cancelExpiryOp k s
  have hexp : alGet k (cacheSet k v [.afterFunc d cbId] s).expiries
      = some s.timers.length := by
    rw [cacheSet_afterFunc_eq, ← hlen]
    exact alGet_alSet_self k _ _
  have hget : (cacheSet k v [.afterFunc d cbId] s).timers[s.timers.length]?
      = some ⟨k, .active, some (cbId, v)⟩ := by
    rw [cacheSet_afterFunc_eq, ← hlen]
    exact List.getElem?_concat_length _ _
  have hlt : s.timers.length < (cacheSet k v [.afterFunc d cbId] s).timers.length :=
    (List.getElem?_eq_some.mp hget).1
  have hfire := fireTimer_eq_of_active s.timers.length
    (cacheSet k v [.afterFunc d cbId] s) ⟨k, .active, some (cbId, v)⟩ hget rfl
  have hget₂ : ((cacheSet k v [.afterFunc d cbId] s).timers.set s.timers.length
        ⟨k, .fired, some (cbId, v)⟩)[s.timers.length]?
      = some ⟨k, .fired, some (cbId, v)⟩ :=
    List.getElem?_set_self (by simpa using hlt)
  have hfired : ∀ t : Timer α, some (⟨k, .fired, some (cbId, v)⟩ : Timer α) = some t →
      t.status ≠ .active := by
    intro t ht
    cases ht
    simp
  refine ⟨hexp, ?_, ?_, ?_⟩
  · rw [hfire]
    rfl
  · rw [hfire]
    simp
  · rw [hfire]
    dsimp only
    apply fireTimer_of_not_active
    intro t ht
    rw [timers_cacheDelete_of_get k s.timers.length _ (by simpa using hexp),
      stopTimer_eq_of_not_active _ _ (fun t' ht' => hfired t' (hget₂ ▸ ht')),
      hget₂] at ht
    exact hfired t ht

/-- **C3.** When an `AfterFunc` expiry fires, the callback receives the
value recorded in the timer — the value that was current when the option was
attached — regardless of what `items` holds for that key at fire time; and
the timer installed by `Set(k, v, AfterFunc(d, cb))` records exactly that
`v`. -/
theorem afterFunc_uses_captured_value (s : CacheState α) (tid : Nat) (t : Timer α)
    (cbId : Nat) (v₀ : α) (h : s.timers[tid]? = some t) (ha : t.status = .active)
    (ho : t.onFire = some (cbId, v₀)) :
    (fireTimer tid s).2 = [(cbId, v₀)] ∧
    ∀ (k : String) (v : α) (d : Nat) (s₀ : CacheState α),
      (cacheSet k v [.afterFunc d cbId] s₀).timers[s₀.timers.length]?
        = some ⟨k, .active, some (cbId, v)⟩ := by
  constructor
  · rw [fireTimer_eq_of_active tid s t h ha, ho]
    rfl
  · intro k v d s₀
    rw [cacheSet_afterFunc_eq, ← timers_length_cancelExpiryOp k s₀]
    exact List.getElem?_concat_length _ _

/-- Witness for C3: the item store holds `7` for `"k"` while the pending
`AfterFunc` timer captured `1`; firing invokes the callback with `1`, not
with the current value `7`. -/
theorem afterFunc_uses_captured_value_witness :
    alGet "k" (⟨[("k", 7)], [("k", 0)], [⟨"k", .active, some (0, 1)⟩]⟩ :
        CacheState Nat).items = some 7 ∧
    ((fireTimer 0 (⟨[("k", 7)], [("k", 0)], [⟨"k", .active, some (0, 1)⟩]⟩ :
        CacheState Nat)).2 = [(0, 1)] ∧
      ∀ (k : String) (v : Nat) (d : Nat) (s₀ : CacheState Nat),
        (cacheSet k v [.afterFunc d 0] s₀).timers[s₀.timers.length]?
          = some ⟨k, .active, some (0, v)⟩) :=
  ⟨by decide,
    afterFunc_uses_captured_value
      (⟨[("k", 7)], [("k", 0)], [⟨"k", .active, some (0, 1)⟩]⟩ : CacheState Nat)
      0 ⟨"k", .active, some (0, 1)⟩ 0 1 rfl rfl rfl⟩

/-- **C4** (the code does not satisfy this claim): the spec demands that a
panicking `AfterFunc` callback be isolated or recovered from so that other
expiries still behave normally, but the closure the code installs —
`func() { c.Delete(key); afterFunc(val) }` — contains no `recover`, and no
`recover` exists anywhere in the package; evaluating the goroutine body with
a panicking callback shows the panic escaping uncontained, which in Go
terminates the entire process, so no later expiry fires at all. -/
theorem afterFunc_panic_escapes :
    runAfterFuncGoroutine (fun _ => PanicOr.panicked) "1" (1 : Nat) initState
      = PanicOr.panicked := rfl

/-- **C6.** `Clear()` removes every entry from the item map — afterwards
`Keys()` is empty, `Size()` is 0, `IsEmpty()` is true — while leaving the
expiry-handle map and every timer completely unchanged; a handle scheduled
before `Clear()` can still fire later, and the redundant delete it issues on
the already-absent key leaves the item map empty (harmless). -/
theorem clear_empties_items_keeps_expiries (s : CacheState α) :
    (cacheClear s).items = [] ∧
    (cacheClear s).expiries = s.expiries ∧
    (cacheClear s).timers = s.timers ∧
    cacheKeys (cacheClear s) = [] ∧
    cacheSize (cacheClear s) = 0 ∧
    cacheIsEmpty (cacheClear s) = true ∧
    ∀ tid : Nat, ((fireTimer tid (cacheClear s)).1).items = [] := by
  refine ⟨rfl, rfl, rfl, rfl, rfl, rfl, ?_⟩
  intro tid
  cases ht : (cacheClear s).timers[tid]? with
  | none =>
    rw [fireTimer_of_not_active tid _ (fun t hh => absurd hh (by rw [ht]; simp))]
    rfl
  | some t =>
    by_cases ha : t.status = .active
    · rw [fireTimer_eq_of_active tid _ t ht ha]
      rw [items_cacheDelete]
      rfl
    · have hna : ∀ t', (cacheClear s).timers[tid]? = some t' → t'.status ≠ .active := by
        intro t' hh
        rw [ht] at hh
        cases hh
        exact ha
      rw [fireTimer_of_not_active tid _ hna]
      rfl

@[simp] theorem alKeys_nil : alKeys ([] : AList α) = [] := rfl

@[simp] theorem alKeys_cons (p : String × α) (t : AList α) :
    alKeys (p :: t) = p.1 :: alKeys t := rfl

theorem alGet_of_not_mem_keys (k : String) (l : AList α) (h : k ∉ alKeys l) :
    alGet k l = none := by
  induction l with
  | nil => rfl
  | cons p t ih =>
    obtain ⟨k₀, v₀⟩ := p
    simp only [alKeys_cons, List.mem_cons] at h
    push_neg at h
    have hne : k₀ ≠ k := fun hh => h.1 hh.symm
    simp [hne, ih h.2]

/-- The copy loop of `Items()`: when the source map has no duplicate keys
(always true of a Go map), the copy looks up exactly like the source; keys
absent from the source fall through to the accumulator. -/
theorem alGet_copy_foldl (l : AList α) (acc : AList α) (k : String)
    (h : (alKeys l).Nodup) :
    alGet k (l.foldl (fun cp p => alSet p.1 p.2 cp) acc)
      = match alGet k l with
        | some v => some v
        | none => alGet k acc := by
  induction l generalizing acc with
  | nil => rfl
  | cons p t ih =>
    obtain ⟨k₀, v₀⟩ := p
    simp only [alKeys_cons, List.nodup_cons] at h
    rw [List.foldl_cons]
    by_cases hk : k₀ = k
    · subst hk
      have hnone : alGet k₀ t = none := alGet_of_not_mem_keys k₀ t h.1
      rw [ih _ h.2]
      simp [hnone]
    · rw [ih _ h.2]
      simp only [alGet_cons, hk, if_false]
      cases alGet k t with
      | some v => rfl
      | none => exact alGet_alSet_ne k₀ k v₀ hk acc

/-- **C7.** `Items()` builds a fresh copy of the key-to-value mapping: the
returned snapshot agrees with the mapping at that instant on every key.  The
snapshot is a value independent of the cache, so later operations produce a
new state without touching it: after `Delete(k)` (or `Clear()`) the cache's
mapping no longer contains `k`, while the snapshot taken before still
answers `alGet k s.items`. -/
theorem items_snapshot_independent (s : CacheState α) (k : String)
    (h : (alKeys s.items).Nodup) :
    alGet k (cacheItems s) = alGet k s.items ∧
    alGet k (cacheDelete k s).items = none ∧
    alGet k (cacheClear s).items = none := by
  refine ⟨?_, ?_, ?_⟩
  · rw [cacheItems, alGet_copy_foldl s.items [] k h]
    cases alGet k s.items <;> rfl
  · rw [items_cacheDelete, alGet_alErase_self]
  · rfl

/-- Witness for C7: the five-key cache of the test suite; the snapshot holds
`"0" ↦ 0` even though a later `Delete("0")` removes it from the cache. -/
theorem items_snapshot_independent_witness :
    ((alKeys (cacheSet "4" 4 [] (cacheSet "3" 3 [] (cacheSet "2" 2 []
        (cacheSet "1" 1 [] (cacheSet "0" (0 : Nat) [] initState))))).items).Nodup ∧
      (alGet "0" (cacheItems (cacheSet "4" 4 [] (cacheSet "3" 3 [] (cacheSet "2" 2 []
          (cacheSet "1" 1 [] (cacheSet "0" (0 : Nat) [] initState)))))) =
          alGet "0" (cacheSet "4" 4 [] (cacheSet "3" 3 [] (cacheSet "2" 2 []
            (cacheSet "1" 1 [] (cacheSet "0" (0 : Nat) [] initState))))).items ∧
        alGet "0" (cacheDelete "0" (cacheSet "4" 4 [] (cacheSet "3" 3 []
          (cacheSet "2" 2 [] (cacheSet "1" 1 []
            (cacheSet "0" (0 : Nat) [] initState)))))).items = none ∧
        alGet "0" (cacheClear (cacheSet "4" 4 [] (cacheSet "3" 3 [] (cacheSet "2" 2 []
          (cacheSet "1" 1 [] (cacheSet "0" (0 : Nat) [] initState)))))).items = none)) ∧
    alGet "0" (cacheItems (cacheSet "4" 4 [] (cacheSet "3" 3 [] (cacheSet "2" 2 []
      (cacheSet "1" 1 [] (cacheSet "0" (0 : Nat) [] initState)))))) = some 0 :=
  ⟨⟨by decide,
    items_snapshot_independent
      (cacheSet "4" 4 [] (cacheSet "3" 3 [] (cacheSet "2" 2 []
        (cacheSet "1" 1 [] (cacheSet "0" (0 : Nat) [] initState))))) "0" (by decide)⟩,
    by decide⟩

/-- Well-formedness of the expiry state: every expiry-map entry points to a
pending (active) timer recorded for that key, and every active timer is
registered in the expiry map under its key with its own id.  Together these
say the expiry map's entries and the pending timers are in bijection. -/
def WF (s : CacheState α) : Prop :=
  (∀ k tid, alGet k s.expiries = some tid →
    ∃ t, s.timers[tid]? = some t ∧ t.key = k ∧ t.status = .active) ∧
  (∀ tid t, s.timers[tid]? = some t → t.status = .active →
    alGet t.key s.expiries = some tid)

theorem WF_initState : WF (initState : CacheState α) := by
  constructor
  · intro k tid h
    simp [initState] at h
  · intro tid t h
    simp [initState] at h

theorem WF_cancelExpiryOp (k : String) (s : CacheState α) (h : WF s) :
    WF (cancelExpiryOp k s) := by
  obtain ⟨h₁, h₂⟩ := h
  unfold cancelExpiryOp
  cases hE : alGet k s.expiries with
  | none => exact ⟨h₁, h₂⟩
  | some tid =>
    obtain ⟨t₀, hT₀, hK₀, hA₀⟩ := h₁ k tid hE
    have hlt : tid < s.timers.length := (List.getElem?_eq_some.mp hT₀).1
    have hstop : stopTimer tid s.timers
        = s.timers.set tid { t₀ with status := .stopped } := by
      unfold stopTimer
      rw [hT₀]
      dsimp only
      rw [if_pos hA₀]
    constructor
    · intro k' tid' hget
      dsimp only at hget ⊢
      have hne : ¬ k = k' := by
        intro hh
        subst hh
        rw [alGet_alErase_self] at hget
        cases hget
      rw [alGet_alErase, if_neg hne] at hget
      obtain ⟨t', hT', hK', hA'⟩ := h₁ k' tid' hget
      have htne : tid ≠ tid' := by
        intro hh
        subst hh
        rw [hT₀] at hT'
        cases hT'
        exact hne (hK₀ ▸ hK')
      refine ⟨t', ?_, hK', hA'⟩
      rw [hstop, List.getElem?_set_ne htne]
      exact hT'
    · intro tid' t' hT' hA'
      dsimp only at hT' ⊢
      rw [hstop] at hT'
      by_cases hte : tid = tid'
      · subst hte
        rw [List.getElem?_set_self (by simpa using hlt)] at hT'
        cases hT'
        simp at hA'
      · rw [List.getElem?_set_ne hte] at hT'
        have hg := h₂ tid' t' hT' hA'
        have hkne : ¬ k = t'.key := by
          intro hh
          rw [← hh, hE] at hg
          exact hte (Option.some.inj hg)
        rw [alGet_alErase, if_neg hkne]
        exact hg

theorem WF_scheduleExpiryOp (k : String) (o : Option (Nat × α)) (s : CacheState α)
    (h : WF s) : WF (scheduleExpiryOp k o s) := by
  obtain ⟨h₁, h₂⟩ := h
  unfold scheduleExpiryOp
  cases hE : alGet k s.expiries with
  | none =>
    dsimp only
    constructor
    · intro k' tid' hget
      dsimp only at hget
      rw [alGet_alSet] at hget
      by_cases hk : k = k'
      · rw [if_pos hk] at hget
        cases hget
        exact ⟨⟨k, .active, o⟩, List.getElem?_concat_length _ _, hk, rfl⟩
      · rw [if_neg hk] at hget
        obtain ⟨t', hT', hK', hA'⟩ := h₁ k' tid' hget
        have hlt' : tid' < s.timers.length := (List.getElem?_eq_some.mp hT').1
        refine ⟨t', ?_, hK', hA'⟩
        rw [List.getElem?_append_left hlt']
        exact hT'
    · intro tid' t' hT' hA'
      dsimp only at hT' ⊢
      by_cases hlt' : tid' < s.timers.length
      · rw [List.getElem?_append_left hlt'] at hT'
        have hg := h₂ tid' t' hT' hA'
        have hkne : ¬ k = t'.key := by
          intro hh
          rw [← hh, hE] at hg
          cases hg
        rw [alGet_alSet, if_neg hkne]
        exact hg
      · push_neg at hlt'
        have hlt3 : tid' < s.timers.length + 1 := by
          have := (List.getElem?_eq_some.mp hT').1
          simpa using this
        have htid : tid' = s.timers.length :=
          le_antisymm (Nat.lt_succ_iff.mp hlt3) hlt'
        subst htid
        rw [List.getElem?_concat_length] at hT'
        cases hT'
        exact alGet_alSet_self k _ _
  | some tid₀ =>
    obtain ⟨t₀, hT₀, hK₀, hA₀⟩ := h₁ k tid₀ hE
    have hlt₀ : tid₀ < s.timers.length := (List.getElem?_eq_some.mp hT₀).1
    have hstop : stopTimer tid₀ s.timers
        = s.timers.set tid₀ { t₀ with status := .stopped } := by
      unfold stopTimer
      rw [hT₀]
      dsimp only
      rw [if_pos hA₀]
    have hlen : (stopTimer tid₀ s.timers).length = s.timers.length := by
      rw [hstop]
      exact List.length_set s.timers tid₀ _
    dsimp only
    constructor
    · intro k' tid' hget
      dsimp only at hget
      rw [alGet_alSet] at hget
      by_cases hk : k = k'
      · rw [if_pos hk] at hget
        cases hget
        exact ⟨⟨k, .active, o⟩, List.getElem?_concat_length _ _, hk, rfl⟩
      · rw [if_neg hk] at hget
        obtain ⟨t', hT', hK', hA'⟩ := h₁ k' tid' hget
        have htne : tid₀ ≠ tid' := by
          intro hh
          subst hh
          rw [hT₀] at hT'
          cases hT'
          exact hk (hK₀ ▸ hK')
        have hlt' : tid' < s.timers.length := (List.getElem?_eq_some.mp hT').1
        refine ⟨t', ?_, hK', hA'⟩
        rw [List.getElem?_append_left (by rw [hlen]; exact hlt'), hstop,
          List.getElem?_set_ne htne]
        exact hT'
    · intro tid' t' hT' hA'
      dsimp only at hT' ⊢
      by_cases hlt' : tid' < (stopTimer tid₀ s.timers).length
      · rw [List.getElem?_append_left hlt'] at hT'
        rw [hstop] at hT'
        by_cases hte : tid₀ = tid'
        · subst hte
          rw [List.getElem?_set_self (by simpa using hlt₀)] at hT'
          cases hT'
          simp at hA'
        · rw [List.getElem?_set_ne hte] at hT'
          have hg := h₂ tid' t' hT' hA'
          have hkne : ¬ k = t'.key := by
            intro hh
            rw [← hh, hE] at hg
            exact hte (Option.some.inj hg)
          rw [alGet_alSet, if_neg hkne]
          exact hg
      · push_neg at hlt'
        have hlt3 : tid' < (stopTimer tid₀ s.timers).length + 1 := by
          have := (List.getElem?_eq_some.mp hT').1
          simpa using this
        have htid : tid' = (stopTimer tid₀ s.timers).length :=
          le_antisymm (Nat.lt_succ_iff.mp hlt3) hlt'
        subst htid
        rw [List.getElem?_concat_length] at hT'
        cases hT'
        exact alGet_alSet_self k _ _

theorem WF_applyOption (k : String) (v : α) (o : SetOption α) (s : CacheState α)
    (h : WF s) : WF (applyOption k v s o) := by
  cases o with
  | expire d => exact WF_scheduleExpiryOp k none s h
  | afterFunc d cbId => exact WF_scheduleExpiryOp k (some (cbId, v)) s h

theorem WF_foldl_options (k : String) (v : α) (opts : List (SetOption α))
    (s : CacheState α) (h : WF s) : WF (opts.foldl (applyOption k v) s) := by
  induction opts generalizing s with
  | nil => exact h
  | cons o t ih =>
    rw [List.foldl_cons]
    exact ih _ (WF_applyOption k v o s h)

theorem WF_cacheSet (k : String) (v : α) (opts : List (SetOption α))
    (s : CacheState α) (h : WF s) : WF (cacheSet k v opts s) := by
  unfold cacheSet
  exact WF_foldl_options k v opts _ (WF_cancelExpiryOp k s h)

theorem WF_cacheDelete (k : String) (s : CacheState α) (h : WF s) :
    WF (cacheDelete k s) := by
  unfold cacheDelete
  exact WF_cancelExpiryOp k s h

theorem WF_cacheClear (s : CacheState α) (h : WF s) : WF (cacheClear s) := h

theorem WF_fireTimer (tid : Nat) (s : CacheState α) (h : WF s) :
    WF (fireTimer tid s).1 := by
  obtain ⟨h₁, h₂⟩ := h
  cases ht : s.timers[tid]? with
  | none =>
    rw [fireTimer_of_not_active tid s (fun t hh => absurd hh (by rw [ht]; simp))]
    exact ⟨h₁, h₂⟩
  | some t =>
    by_cases ha : t.status = .active
    · rw [fireTimer_eq_of_active tid s t ht ha]
      dsimp only
      have hg : alGet t.key s.expiries = some tid := h₂ tid t ht ha
      have hlt : tid < s.timers.length := (List.getElem?_eq_some.mp ht).1
      have hset : (s.timers.set tid { t with status := .fired })[tid]?
          = some { t with status := .fired } :=
        List.getElem?_set_self (by simpa using hlt)
      unfold cacheDelete itemDeleteOp cancelExpiryOp
      rw [hg]
      dsimp only
      rw [stopTimer_eq_of_not_active tid _ (fun t' hh => by
        rw [hset] at hh
        cases hh
        simp)]
      constructor
      · intro k' tid' hget
        dsimp only at hget ⊢
        have hne : ¬ t.key = k' := by
          intro hh
          subst hh
          rw [alGet_alErase_self] at hget
          cases hget
        rw [alGet_alErase, if_neg hne] at hget
        obtain ⟨t', hT', hK', hA'⟩ := h₁ k' tid' hget
        have htne : tid ≠ tid' := by
          intro hh
          subst hh
          rw [ht] at hT'
          cases hT'
          exact hne hK'
        refine ⟨t', ?_, hK', hA'⟩
        rw [List.getElem?_set_ne htne]
        exact hT'
      · intro tid' t' hT' hA'
        dsimp only at hT' ⊢
        by_cases hte : tid = tid'
        · subst hte
          rw [hset] at hT'
          cases hT'
          simp at hA'
        · rw [List.getElem?_set_ne hte] at hT'
          have hg' := h₂ tid' t' hT' hA'
          have hkne : ¬ t.key = t'.key := by
            intro hh
            rw [← hh, hg] at hg'
            exact hte (Option.some.inj hg')
          rw [alGet_alErase, if_neg hkne]
          exact hg'
    · rw [fireTimer_of_not_active tid s (fun t' hh => by
        rw [ht] at hh
        cases hh
        exact ha)]
      exact ⟨h₁, h₂⟩

/-- The operations a client (or a firing timer) can perform, for stating
history properties. -/
inductive CacheOp (α : Type u) : Type u where
  | set (k : String) (v : α) (opts : List (SetOption α)) : CacheOp α
  | del (k : String) : CacheOp α
  | clear : CacheOp α
  | fire (tid : Nat) : CacheOp α

def runOp (s : CacheState α) : CacheOp α → CacheState α
  | .set k v opts => cacheSet k v opts s
  | .del k => cacheDelete k s
  | .clear => cacheClear s
  | .fire tid => (fireTimer tid s).1

/-- Running a history of operations against the freshly created cache. -/
def runTrace (tr : List (CacheOp α)) : CacheState α :=
  tr.foldl runOp initState

/-- The operations that can install an expiry handle for `k`: a `Set` on `k`
carrying at least one option (every option of this package schedules an
expiry). -/
def expiryBearingFor (k : String) : CacheOp α → Prop
  | .set k' _ opts => k' = k ∧ opts ≠ []
  | _ => False

theorem alGet_expiries_cancelExpiryOp_ne (k k' : String) (s : CacheState α)
    (hne : k' ≠ k) : alGet k (cancelExpiryOp k' s).expiries = alGet k s.expiries := by
  unfold cancelExpiryOp
  cases alGet k' s.expiries with
  | none => rfl
  | some tid =>
    dsimp only
    exact alGet_alErase_ne k' k hne s.expiries

theorem alGet_expiries_foldl_applyOption_ne (k k' : String) (v : α)
    (opts : List (SetOption α)) (s : CacheState α) (hne : k' ≠ k) :
    alGet k (opts.foldl (applyOption k' v) s).expiries = alGet k s.expiries := by
  induction opts generalizing s with
  | nil => rfl
  | cons o t ih =>
    rw [List.foldl_cons, ih]
    cases o with
    | expire d => exact alGet_alSet_ne k' k _ hne _
    | afterFunc d cbId => exact alGet_alSet_ne k' k _ hne _

theorem alGet_expiries_cacheSet_ne (k k' : String) (v : α)
    (opts : List (SetOption α)) (s : CacheState α) (hne : k' ≠ k) :
    alGet k (cacheSet k' v opts s).expiries = alGet k s.expiries := by
  unfold cacheSet
  rw [alGet_expiries_foldl_applyOption_ne k k' v opts _ hne, expiries_itemSetOp]
  exact alGet_expiries_cancelExpiryOp_ne k k' s hne

/-- An operation that is not an expiry-bearing `Set(k, ...)` cannot create
an expiry handle for `k`. -/
theorem no_handle_step (k : String) (s : CacheState α) (op : CacheOp α)
    (hop : ¬ expiryBearingFor k op) (h : alGet k s.expiries = none) :
    alGet k (runOp s op).expiries = none := by
  cases op with
  | set k' v opts =>
    by_cases hk : k' = k
    · subst hk
      have hopts : opts = [] := by
        by_contra hne
        exact hop ⟨rfl, hne⟩
      subst hopts
      show alGet k' (cacheSet k' v [] s).expiries = none
      rw [cacheSet_no_options, expiries_itemSetOp]
      exact alGet_cancelExpiryOp_self k' s
    · rw [show runOp s (.set k' v opts) = cacheSet k' v opts s from rfl,
        alGet_expiries_cacheSet_ne k k' v opts s hk]
      exact h
  | del k' =>
    show alGet k (cacheDelete k' s).expiries = none
    rw [expiries_cacheDelete, alGet_alErase]
    by_cases hk : k' = k
    · rw [if_pos hk]
    · rw [if_neg hk]
      exact h
  | clear => exact h
  | fire tid =>
    show alGet k ((fireTimer tid s).1).expiries = none
    cases ht : s.timers[tid]? with
    | none =>
      rw [fireTimer_of_not_active tid s (fun t hh => absurd hh (by rw [ht]; simp))]
      exact h
    | some t =>
      by_cases ha : t.status = .active
      · rw [fireTimer_eq_of_active tid s t ht ha]
        dsimp only
        rw [expiries_cacheDelete]
        show alGet k (alErase t.key s.expiries) = none
        rw [alGet_alErase]
        by_cases hk : t.key = k
        · rw [if_pos hk]
        · rw [if_neg hk]
          exact h
      · rw [fireTimer_of_not_active tid s (fun t' hh => by
          rw [ht] at hh
          cases hh
          exact ha)]
        exact h

/-- In any history starting from `New()`, a key holds an expiry handle only
if some operation of the history was a `Set` on that key with an
expiry-bearing option. -/
theorem handle_requires_expiry_option (k : String) (tid : Nat)
    (tr : List (CacheOp α)) (h : alGet k (runTrace tr).expiries = some tid) :
    ∃ op ∈ tr, expiryBearingFor k op := by
  by_contra hno
  push_neg at hno
  have gen : ∀ (l : List (CacheOp α)) (s : CacheState α),
      (∀ op ∈ l, ¬ expiryBearingFor k op) → alGet k s.expiries = none →
      alGet k (l.foldl runOp s).expiries = none := by
    intro l
    induction l with
    | nil => exact fun s _ h0 => h0
    | cons op t ih =>
      intro s hall h0
      rw [List.foldl_cons]
      exact ih _ (fun o ho => hall o (List.mem_cons_of_mem _ ho))
        (no_handle_step k s op (hall op (List.mem_cons_self op t)) h0)
  have hfin : alGet k (runTrace tr).expiries = none := gen tr initState hno rfl
  rw [hfin] at h
  cases h

/-- The operations that remove or replace whatever expiry handle `k` holds
as part of acting on `k` itself: `Delete(k)` (cancels and removes) and any
`Set(k, ...)` (cancels unconditionally, then possibly installs a fresh
handle).  `Clear` and timer fires on other keys never touch `k`'s handle;
the fire of `k`'s own handle removes it. -/
def setsOrDeletesKey (k : String) : CacheOp α → Prop
  | .set k' _ _ => k' = k
  | .del k' => k' = k
  | .clear => False
  | .fire _ => False

theorem WF_runOp (s : CacheState α) (op : CacheOp α) (h : WF s) : WF (runOp s op) := by
  cases op with
  | set k v opts => exact WF_cacheSet k v opts s h
  | del k => exact WF_cacheDelete k s h
  | clear => exact WF_cacheClear s h
  | fire tid => exact WF_fireTimer tid s h

/-- Every state reachable from `New()` is well-formed. -/
theorem WF_runTrace (tr : List (CacheOp α)) : WF (runTrace tr) := by
  have gen : ∀ (l : List (CacheOp α)) (s : CacheState α), WF s → WF (l.foldl runOp s) := by
    intro l
    induction l with
    | nil => exact fun s h => h
    | cons op t ih =>
      intro s h
      rw [List.foldl_cons]
      exact ih _ (WF_runOp s op h)
  exact gen tr initState WF_initState

/-- A fire event never creates an expiry handle: a handle present after it
was present before it. -/
theorem fire_preserves_handle (k : String) (tid tf : Nat) (s : CacheState α)
    (h : alGet k ((fireTimer tf s).1).expiries = some tid) :
    alGet k s.expiries = some tid := by
  cases ht : s.timers[tf]? with
  | none =>
    rw [fireTimer_of_not_active tf s (fun t hh => absurd hh (by rw [ht]; simp))] at h
    exact h
  | some t =>
    by_cases ha : t.status = .active
    · rw [fireTimer_eq_of_active tf s t ht ha] at h
      dsimp only at h
      rw [expiries_cacheDelete] at h
      rw [alGet_alErase] at h
      by_cases hk : t.key = k
      · rw [if_pos hk] at h
        cases h
      · rw [if_neg hk] at h
        exact h
    · rw [fireTimer_of_not_active tf s (fun t' hh => by
        rw [ht] at hh
        cases hh
        exact ha)] at h
      exact h

/-- If a key holds an expiry handle after a history, the history splits
around an expiry-bearing `Set` on that key that no later operation of the
history sets or deletes: the key has not been deleted or overwritten since
that `Set`. -/
theorem handle_decomposition (k : String) (tr : List (CacheOp α)) :
    ∀ tid, alGet k (runTrace tr).expiries = some tid →
    ∃ pre op post, tr = pre ++ op :: post ∧ expiryBearingFor k op ∧
      ∀ o ∈ post, ¬ setsOrDeletesKey k o := by
  induction tr using List.reverseRecOn with
  | nil =>
    intro tid h
    simp [runTrace, initState] at h
  | append_singleton tr₀ op ih =>
    intro tid h
    have hrun : runTrace (tr₀ ++ [op]) = runOp (runTrace tr₀) op := by
      simp [runTrace, List.foldl_append]
    rw [hrun] at h
    have extend : (¬ setsOrDeletesKey k op) →
        alGet k (runTrace tr₀).expiries = some tid →
        ∃ pre op' post, tr₀ ++ [op] = pre ++ op' :: post ∧ expiryBearingFor k op' ∧
          ∀ o ∈ post, ¬ setsOrDeletesKey k o := by
      intro hop h₀
      obtain ⟨pre, op', post, heq, hbear, hpost⟩ := ih tid h₀
      refine ⟨pre, op', post ++ [op], ?_, hbear, ?_⟩
      · rw [heq]
        simp
      · intro o ho
        rcases List.mem_append.mp ho with h₁ | h₂
        · exact hpost o h₁
        · rw [List.mem_singleton.mp h₂]
          exact hop
    cases op with
    | set k' v opts =>
      by_cases hk : k' = k
      · subst hk
        by_cases hopts : opts = []
        · subst hopts
          rw [show runOp (runTrace tr₀) (.set k' v []) = cacheSet k' v [] (runTrace tr₀)
              from rfl,
            cacheSet_no_options, expiries_itemSetOp, alGet_cancelExpiryOp_self] at h
          cases h
        · exact ⟨tr₀, .set k' v opts, [], rfl, ⟨rfl, hopts⟩, by simp⟩
      · refine extend (fun hc => hk hc) ?_
        rw [show runOp (runTrace tr₀) (.set k' v opts) = cacheSet k' v opts (runTrace tr₀)
            from rfl,
          alGet_expiries_cacheSet_ne k k' v opts _ hk] at h
        exact h
    | del k' =>
      by_cases hk : k' = k
      · subst hk
        rw [show runOp (runTrace tr₀) (.del k') = cacheDelete k' (runTrace tr₀) from rfl,
          expiries_cacheDelete, alGet_alErase_self] at h
        cases h
      · refine extend (fun hc => hk hc) ?_
        rw [show runOp (runTrace tr₀) (.del k') = cacheDelete k' (runTrace tr₀) from rfl,
          expiries_cacheDelete, alGet_alErase_ne k' k hk] at h
        exact h
    | clear => exact extend (fun hc => hc) h
    | fire tf => exact extend (fun hc => hc) (fire_preserves_handle k tid tf _ h)

/-- **C9.** The expiry-handle invariant: in a well-formed state (and the
fresh cache is well-formed, as is every state reachable from it) each key
has at most one active expiry handle — two active timers for the same key
coincide — and every operation (`Set` with any option list, including
several `Expire`/`AfterFunc` options in one call, `Delete`, `Clear`, and an
expiry firing) preserves well-formedness.  Moreover, over any history from
`New()`, a key holds an expiry handle only if the history splits around a
`Set` of that key carrying an expiry-bearing option that has **not since
been followed by any `Delete` of the key or any overwrite of the key** (in
particular by no un-optioned `Set` that would clear the handle), and the
handle has **not already expired**: it still points at a pending (active)
timer, never at a fired one — a fire of that handle would have removed it
from the map, and with no later `Set` of the key nothing could have
re-installed it. -/
theorem expiry_handle_invariant (s : CacheState α) (k : String) (v : α)
    (opts : List (SetOption α)) (tid : Nat) (h : WF s) :
    WF (initState : CacheState α) ∧
    WF (cacheSet k v opts s) ∧
    WF (cacheDelete k s) ∧
    WF (cacheClear s) ∧
    WF (fireTimer tid s).1 ∧
    (∀ (tid₁ tid₂ : Nat) (t₁ t₂ : Timer α), s.timers[tid₁]? = some t₁ →
      s.timers[tid₂]? = some t₂ →
      t₁.status = .active → t₂.status = .active → t₁.key = t₂.key → tid₁ = tid₂) ∧
    (∀ tr : List (CacheOp α), WF (runTrace tr)) ∧
    (∀ (tr : List (CacheOp α)) (tid' : Nat),
      alGet k (runTrace tr).expiries = some tid' →
      (∃ t, (runTrace tr).timers[tid']? = some t ∧ t.key = k ∧ t.status = .active) ∧
      ∃ pre op post, tr = pre ++ op :: post ∧ expiryBearingFor k op ∧
        ∀ o ∈ post, ¬ setsOrDeletesKey k o) := by
  refine ⟨WF_initState, WF_cacheSet k v opts s h, WF_cacheDelete k s h,
    WF_cacheClear s h, WF_fireTimer tid s h, ?_, WF_runTrace,
    fun tr tid' hget =>
      ⟨(WF_runTrace tr).1 k tid' hget, handle_decomposition k tr tid' hget⟩⟩
  intro tid₁ tid₂ t₁ t₂ hT₁ hT₂ hA₁ hA₂ hkey
  have e₁ := h.2 tid₁ t₁ hT₁ hA₁
  have e₂ := h.2 tid₂ t₂ hT₂ hA₂
  rw [hkey, e₂] at e₁
  exact (Option.some.inj e₁).symm

/-- Witness for C9: the invariant theorem applied to the fresh cache, whose
well-formedness discharges the hypothesis. -/
theorem expiry_handle_invariant_witness :
    WF (initState : CacheState Nat) ∧
    WF (cacheSet "a" (1 : Nat) [.expire 3, .afterFunc 4 0] initState) ∧
    WF (cacheDelete "a" (initState : CacheState Nat)) ∧
    WF (cacheClear (initState : CacheState Nat)) ∧
    WF (fireTimer 0 (initState : CacheState Nat)).1 ∧
    (∀ (tid₁ tid₂ : Nat) (t₁ t₂ : Timer Nat),
      (initState : CacheState Nat).timers[tid₁]? = some t₁ →
      (initState : CacheState Nat).timers[tid₂]? = some t₂ →
      t₁.status = .active → t₂.status = .active → t₁.key = t₂.key → tid₁ = tid₂) ∧
    (∀ tr : List (CacheOp Nat), WF (runTrace tr)) ∧
    (∀ (tr : List (CacheOp Nat)) (tid' : Nat),
      alGet "a" (runTrace tr).expiries = some tid' →
      (∃ t, (runTrace tr).timers[tid']? = some t ∧ t.key = "a" ∧ t.status = .active) ∧
      ∃ pre op post, tr = pre ++ op :: post ∧ expiryBearingFor "a" op ∧
        ∀ o ∈ post, ¬ setsOrDeletesKey "a" o) :=
  expiry_handle_invariant initState "a" 1 [.expire 3, .afterFunc 4 0] 0 WF_initState

/-- The keys `"0" .. "4"` inserted in the shuffled order 2, 0, 4, 1, 3. -/
def shuffledFive : CacheState Nat :=
  cacheSet "3" 3 [] (cacheSet "1" 1 [] (cacheSet "4" 4 []
    (cacheSet "0" 0 [] (cacheSet "2" 2 [] initState))))

/-- **C8.** `Keys()` returns exactly the keys present at that instant
(a permutation of the item map's key set), sorted in ascending lexicographic
order — and inserting `"0" .. "4"` in shuffled order yields
`["0","1","2","3","4"]`, not insertion order. -/
theorem keys_sorted_lexicographic (s : CacheState α) :
    List.Sorted (fun a b : String => a ≤ b) (cacheKeys s) ∧
    List.Perm (cacheKeys s) (alKeys s.items) ∧
    cacheKeys shuffledFive = ["0", "1", "2", "3", "4"] := by
  refine ⟨?_, ?_, by decide⟩
  · exact (List.sorted_insertionSort goLe (alKeys s.items)).imp
      (fun hab => (strLeb_iff_le _ _).mp hab)
  · exact List.perm_insertionSort goLe (alKeys s.items)

end GoCache
